import Mathlib

/-!
A shallow embedding of `src/clahe.h` (`applyCLAHE`, CLAHE — Contrast Limited
Adaptive Histogram Equalization) and proofs about it.

Modelling conventions:
* the grayscale buffer is a `List ℕ` of byte values; a null pointer is `none`;
* C++ `int` values are `ℤ` (the one claim about 32-bit wrapping uses an explicit
  `% 2 ^ 32` model, `wrap32`); C++ `int` division and modulus are `Int.tdiv` /
  `Int.tmod` (truncation toward zero, as in C++);
* `double` arithmetic is modelled exactly on `ℚ`; the C++ `static_cast<int>` of a
  `double` is `truncQ` (truncation toward zero);
* a C++ `std::vector` read `v[i]` is `List.getD i 0`; an out-of-range index is an
  out-of-bounds read in the source, the model returns the default `0` there and the
  in-bounds side conditions are stated and settled separately;
* the histogram / output filling loops are modelled extensionally: the loops of the
  source write each cell exactly once, so the buffer they produce is the map of the
  per-cell value over the index range, with the source's row-major layout.
-/

set_option maxRecDepth 16000

namespace CLAHE

/-- Number of histogram bins, `NUM_BINS` in the source. -/
def NUM_BINS : ℕ := 256

/-- C++ `static_cast<int>` applied to a `double`, modelled on `ℚ`:
truncation toward zero. -/
def truncQ (q : ℚ) : ℤ := Int.tdiv q.num q.den

/-- C++ conversion `int` → `uint8_t`: reduction modulo 2 ^ 8. -/
def toUInt8 (z : ℤ) : ℕ := (z % 256).toNat

/-- The clip limit in absolute counts:
`std::max(1, static_cast<int>(clipLimit * numPixelsPerTile / NUM_BINS))`. -/
def clipCountOf (clipLimit : ℚ) (numPixelsPerTile : ℤ) : ℤ :=
  max 1 (truncQ (clipLimit * (numPixelsPerTile : ℚ) / (NUM_BINS : ℚ)))

/-- The pixel coordinates `(x, y)` scanned by the histogram loop of tile `(tx, ty)`:
the region `[tx*tileW, tx*tileW + tileW) × [ty*tileH, ty*tileH + tileH)`, row by row. -/
def tileCoords (tileW tileH tx ty : ℕ) : List (ℕ × ℕ) :=
  (List.range tileH).flatMap fun dy =>
    (List.range tileW).map fun dx => (tx * tileW + dx, ty * tileH + dy)

/-- The intensity samples `data[y * width + x]` read by the histogram loop of
tile `(tx, ty)`. -/
def tilePixels (data : List ℕ) (width tileW tileH tx ty : ℕ) : List ℕ :=
  (tileCoords tileW tileH tx ty).map fun c => data.getD (c.2 * width + c.1) 0

/-- The histogram loop `hist[data[y * width + x]]++` over the tile region,
starting from the zero-initialized 256 bins. -/
def histList (data : List ℕ) (width tileW tileH tx ty : ℕ) : List ℤ :=
  (tilePixels data width tileW tileH tx ty).foldl
    (fun h p => h.modify (· + 1) p) (List.replicate NUM_BINS 0)

/-- Total excess accumulated by the clipping loop:
the sum over all bins of `hist[i] - clipCount` where positive. -/
def excessOf (h : List ℤ) (clipCount : ℤ) : ℤ :=
  (h.map fun v => max (v - clipCount) 0).sum

/-- The histogram after the clipping loop: every bin capped at `clipCount`. -/
def clippedList (h : List ℤ) (clipCount : ℤ) : List ℤ :=
  h.map fun v => min v clipCount

/-- The remainder loop `for i in [0, remainder): hist[i * NUM_BINS / remainder]++`. -/
def distributeRemainder (r : ℕ) (h : List ℤ) : List ℤ :=
  (List.range r).foldl (fun acc i => acc.modify (· + 1) (i * NUM_BINS / r)) h

/-- Clip-and-redistribute: cap every bin at `clipCount`, add `excess / NUM_BINS` to
every bin, then add one to bin `i * NUM_BINS / remainder` for each
`i < remainder := excess % NUM_BINS`. -/
def redistributedList (h : List ℤ) (clipCount : ℤ) : List ℤ :=
  distributeRemainder (Int.tmod (excessOf h clipCount) (NUM_BINS : ℤ)).toNat
    ((clippedList h clipCount).map (· + Int.tdiv (excessOf h clipCount) (NUM_BINS : ℤ)))

/-- The normalized CDF of a histogram: the running cumulative sum, each entry
`static_cast<uint8_t>(std::min(255, cumSum * 255 / numPixelsPerTile))`. -/
def cdfList (h : List ℤ) (numPixelsPerTile : ℤ) : List ℕ :=
  (List.scanl (· + ·) (0 : ℤ) h).tail.map fun s =>
    toUInt8 (min 255 (Int.tdiv (s * 255) numPixelsPerTile))

/-- The full per-tile pipeline (stages 1–3): histogram, clip-and-redistribute,
normalized CDF. Produces the 256 bytes of tile `(tx, ty)`. -/
def tileCdf (data : List ℕ) (width tileW tileH : ℕ) (clipLimit : ℚ) (tx ty : ℕ) :
    List ℕ :=
  cdfList
    (redistributedList (histList data width tileW tileH tx ty)
      (clipCountOf clipLimit ((tileW : ℤ) * (tileH : ℤ))))
    ((tileW : ℤ) * (tileH : ℤ))

/-- The flat CDF table `cdfs` of the source (a vector of `tilesX * tilesY * 256`
bytes): the tiles are produced with `ty` outer and `tx` inner, so tile `(tx, ty)`
occupies entries `[(ty*tilesX + tx) * 256, (ty*tilesX + tx) * 256 + 256)`. -/
def cdfs (data : List ℕ) (width tilesX tilesY tileW tileH : ℕ) (clipLimit : ℚ) :
    List ℕ :=
  (List.range (tilesY * tilesX)).flatMap fun t =>
    tileCdf data width tileW tileH clipLimit (t % tilesX) (t / tilesX)

/-- The tile-center coordinate `fx = x / tileW - 0.5` (resp. `fy`), exactly on `ℚ`. -/
def fxAt (tileW x : ℕ) : ℚ := (x : ℚ) / (tileW : ℚ) - 1 / 2

/-- The clamped low tile index
`tx0 = std::max(0, std::min(static_cast<int>(fx), tilesX - 2))`
(and the same formula with `tilesY`, `tileH`, `y` for `ty0`). -/
def idx0At (tiles tileLen u : ℕ) : ℤ :=
  max 0 (min (truncQ (fxAt tileLen u)) ((tiles : ℤ) - 2))

/-- The flat index of the CDF fetch `cdfs[(ty * tilesX + tx) * NUM_BINS + pixel]`. -/
def flatIdx (tilesX : ℕ) (ty tx : ℤ) (pixel : ℕ) : ℤ :=
  (ty * (tilesX : ℤ) + tx) * (NUM_BINS : ℤ) + (pixel : ℤ)

/-- Stage 4 for one pixel: bilinear blend of the four neighbor tiles' CDF values at
the pixel's original intensity, clamped to `[0, 255]` and truncated to a byte. -/
def interpAt (data : List ℕ) (width tilesX tilesY tileW tileH : ℕ) (clipLimit : ℚ)
    (x y : ℕ) : ℕ :=
  let pixel := data.getD (y * width + x) 0
  let tx0 := idx0At tilesX tileW x
  let ty0 := idx0At tilesY tileH y
  let tx1 := tx0 + 1
  let ty1 := ty0 + 1
  let cax : ℚ := max 0 (min 1 (fxAt tileW x - (tx0 : ℚ)))
  let cay : ℚ := max 0 (min 1 (fxAt tileH y - (ty0 : ℚ)))
  let C := cdfs data width tilesX tilesY tileW tileH clipLimit
  let v00 := C.getD (flatIdx tilesX ty0 tx0 pixel).toNat 0
  let v01 := C.getD (flatIdx tilesX ty0 tx1 pixel).toNat 0
  let v10 := C.getD (flatIdx tilesX ty1 tx0 pixel).toNat 0
  let v11 := C.getD (flatIdx tilesX ty1 tx1 pixel).toNat 0
  let top : ℚ := (v00 : ℚ) * (1 - cax) + (v01 : ℚ) * cax
  let bottom : ℚ := (v10 : ℚ) * (1 - cax) + (v11 : ℚ) * cax
  let value : ℚ := top * (1 - cay) + bottom * cay
  (truncQ (max 0 (min 255 value))).toNat

/-- The temporary output buffer: `output[y * width + x] = interpAt x y` over the whole
image; entry `k` of the row-major buffer decodes to `x = k % width`, `y = k / width`. -/
def outputList (data : List ℕ) (width height tilesX tilesY tileW tileH : ℕ)
    (clipLimit : ℚ) : List ℕ :=
  (List.range (width * height)).map fun k =>
    interpAt data width tilesX tilesY tileW tileH clipLimit (k % width) (k / width)

/-- The entry point `applyCLAHE`. `none` models a null `data` pointer. Invalid inputs
return the buffer untouched; otherwise the completed output buffer replaces the image
(the final `memcpy`). -/
def applyCLAHE (data : Option (List ℕ)) (width height tilesX tilesY : ℤ)
    (clipLimit : ℚ) : Option (List ℕ) :=
  match data with
  | none => none
  | some d =>
    if width ≤ 0 ∨ height ≤ 0 then some d
    else if tilesX ≤ 0 ∨ tilesY ≤ 0 then some d
    else
      if Int.tdiv width tilesX ≤ 0 ∨ Int.tdiv height tilesY ≤ 0 then some d
      else
        some (outputList d width.toNat height.toNat tilesX.toNat tilesY.toNat
          (Int.tdiv width tilesX).toNat (Int.tdiv height tilesY).toNat clipLimit)

/-- Wrap an integer to the 32-bit two's-complement signed range. -/
def wrap32 (z : ℤ) : ℤ := (z + 2 ^ 31) % 2 ^ 32 - 2 ^ 31

/-- The CDF entry as the source computes it when `int` is 32 bits wide and overflow
wraps modulo 2 ^ 32: the product `cumSum * 255` wraps, then C++ truncating division,
`std::min`, and the cast to `uint8_t`. -/
def cdfEntry32 (cumSum numPixelsPerTile : ℤ) : ℕ :=
  toUInt8 (min 255 (Int.tdiv (wrap32 (cumSum * 255)) numPixelsPerTile))

/-- The same CDF entry in exact integer arithmetic, clamped to `[0, 255]`. -/
def cdfEntryExact (cumSum numPixelsPerTile : ℤ) : ℕ :=
  (min 255 (max 0 (Int.tdiv (cumSum * 255) numPixelsPerTile))).toNat

/-- The 16×16 test image of the spec's concrete scenario: tile `(0,0)` (an 8×8 tile)
holds 0 in its left half (columns 0–3) and 255 in its right half (columns 4–7);
every other pixel is 0. -/
def dataC9 : List ℕ :=
  (List.range 256).map fun k =>
    if k % 16 < 8 ∧ k / 16 < 8 ∧ 4 ≤ k % 16 then 255 else 0

/-! ### Basic facts about the byte cast and the double-to-int truncation -/

theorem toUInt8_le (z : ℤ) : toUInt8 z ≤ 255 := by
  unfold toUInt8
  have h1 := Int.emod_lt_of_pos z (show (0 : ℤ) < 256 by norm_num)
  have h2 := Int.emod_nonneg z (show (256 : ℤ) ≠ 0 by norm_num)
  omega

theorem toUInt8_of_mem_range {z : ℤ} (h0 : 0 ≤ z) (h1 : z < 256) :
    (toUInt8 z : ℤ) = z := by
  unfold toUInt8
  rw [Int.emod_eq_of_lt h0 h1, Int.toNat_of_nonneg h0]

theorem truncQ_eq_floor {q : ℚ} (h : 0 ≤ q) : truncQ q = ⌊q⌋ := by
  unfold truncQ
  rw [Rat.floor_def, Int.tdiv_eq_ediv (Rat.num_nonneg.2 h) (Int.natCast_nonneg _)]

theorem truncQ_natCast (c : ℕ) : truncQ (c : ℚ) = c := by
  unfold truncQ
  rw [Rat.num_natCast, Rat.den_natCast]
  simp [Int.tdiv_one]

theorem truncQ_nonneg {q : ℚ} (h : 0 ≤ q) : 0 ≤ truncQ q :=
  Int.tdiv_nonneg (Rat.num_nonneg.2 h) (Int.natCast_nonneg _)

theorem truncQ_le_of_le {q : ℚ} {n : ℕ} (h0 : 0 ≤ q) (h : q ≤ (n : ℚ)) :
    truncQ q ≤ n := by
  rw [truncQ_eq_floor h0]
  exact Int.le_of_lt_add_one (by exact_mod_cast Int.floor_lt.2 (by push_cast; linarith))

/-! ### Facts about List.modify and the increment loops -/

theorem modify_getD (h : List ℤ) (n b : ℕ) (hn : n < h.length) :
    (h.modify (· + 1) n).getD b 0 = h.getD b 0 + if n = b then 1 else 0 := by
  rw [List.getD_eq_getElem?_getD, List.getD_eq_getElem?_getD, List.getElem?_modify]
  rcases Nat.lt_or_ge b h.length with hb | hb
  · rw [List.getElem?_eq_getElem hb]
    by_cases hnb : n = b <;> simp [hnb]
  · rw [List.getElem?_eq_none hb]
    have hnb : n ≠ b := by omega
    simp [hnb]

theorem modify_sum (h : List ℤ) (n : ℕ) (hn : n < h.length) :
    (h.modify (· + 1) n).sum = h.sum + 1 := by
  rw [List.modify_eq_set_get _ hn, List.sum_set]
  have hget : h.get ⟨n, hn⟩ = h[n] := rfl
  rw [hget, if_pos hn]
  conv_rhs => rw [← List.take_append_drop (n + 1) h, List.sum_append]
  have hdrop : List.take (n + 1) h = List.take n h ++ [h[n]] := by
    rw [← List.take_concat_get _ _ hn, List.concat_eq_append]
  rw [hdrop, List.sum_append]
  simp
  ring

theorem foldl_modify_length {α : Type} (posf : α → ℕ) (l : List α) (h : List ℤ) :
    (l.foldl (fun acc i => acc.modify (· + 1) (posf i)) h).length = h.length := by
  induction l generalizing h with
  | nil => rfl
  | cons a t ih => rw [List.foldl_cons, ih, List.length_modify]

theorem foldl_modify_getD {α : Type} (posf : α → ℕ) (l : List α) (h : List ℤ) (b : ℕ)
    (hpos : ∀ i ∈ l, posf i < h.length) :
    (l.foldl (fun acc i => acc.modify (· + 1) (posf i)) h).getD b 0 =
      h.getD b 0 + (l.countP fun i => posf i == b) := by
  induction l generalizing h with
  | nil => simp
  | cons a t ih =>
    rw [List.foldl_cons, ih _ (fun i hi => by
      rw [List.length_modify]; exact hpos i (List.mem_cons_of_mem a hi))]
    rw [modify_getD h (posf a) b (hpos a (List.mem_cons_self a t)), List.countP_cons]
    by_cases hab : posf a = b
    all_goals simp [hab]
    all_goals omega

theorem foldl_modify_sum {α : Type} (posf : α → ℕ) (l : List α) (h : List ℤ)
    (hpos : ∀ i ∈ l, posf i < h.length) :
    (l.foldl (fun acc i => acc.modify (· + 1) (posf i)) h).sum = h.sum + l.length := by
  induction l generalizing h with
  | nil => simp
  | cons a t ih =>
    rw [List.foldl_cons, ih _ (fun i hi => by
      rw [List.length_modify]; exact hpos i (List.mem_cons_of_mem a hi))]
    rw [modify_sum h (posf a) (hpos a (List.mem_cons_self a t))]
    simp only [List.length_cons]
    push_cast
    ring

/-! ### Lengths of the intermediate buffers -/

theorem histList_length (data : List ℕ) (width tileW tileH tx ty : ℕ) :
    (histList data width tileW tileH tx ty).length = NUM_BINS := by
  unfold histList
  rw [foldl_modify_length, List.length_replicate]

theorem redistributedList_length (h : List ℤ) (c : ℤ) :
    (redistributedList h c).length = h.length := by
  unfold redistributedList distributeRemainder clippedList
  rw [foldl_modify_length, List.length_map, List.length_map]

theorem cdfList_length (h : List ℤ) (numPixels : ℤ) :
    (cdfList h numPixels).length = h.length := by
  unfold cdfList
  rw [List.length_map, List.length_tail, List.length_scanl]
  omega

theorem tileCdf_length (data : List ℕ) (width tileW tileH : ℕ) (cl : ℚ) (tx ty : ℕ) :
    (tileCdf data width tileW tileH cl tx ty).length = NUM_BINS := by
  unfold tileCdf
  rw [cdfList_length, redistributedList_length, histList_length]

theorem flatMap_range_length {α : Type} (f : ℕ → List α) (L n : ℕ)
    (hf : ∀ t, (f t).length = L) :
    ((List.range n).flatMap f).length = n * L := by
  induction n with
  | zero => simp
  | succ m ih =>
    rw [List.range_succ, List.flatMap_append, List.length_append, ih,
      List.flatMap_cons, List.flatMap_nil, List.append_nil, hf]
    ring

theorem cdfs_length (data : List ℕ) (width tilesX tilesY tileW tileH : ℕ) (cl : ℚ) :
    (cdfs data width tilesX tilesY tileW tileH cl).length = tilesY * tilesX * NUM_BINS := by
  unfold cdfs
  rw [flatMap_range_length _ NUM_BINS _ (fun t => tileCdf_length ..), Nat.mul_assoc]

theorem outputList_length (data : List ℕ) (width height tilesX tilesY tileW tileH : ℕ)
    (cl : ℚ) :
    (outputList data width height tilesX tilesY tileW tileH cl).length = width * height := by
  unfold outputList
  rw [List.length_map, List.length_range]

/-! ### Reading the flat CDF table at a tile's entry -/

theorem flatMap_range_getD {α : Type} (f : ℕ → List α) (d : α) (L n k i : ℕ)
    (hf : ∀ t, (f t).length = L) (hk : k < n) (hi : i < L) :
    ((List.range n).flatMap f).getD (k * L + i) d = (f k).getD i d := by
  induction n with
  | zero => omega
  | succ m ih =>
    rw [List.range_succ, List.flatMap_append, List.flatMap_cons, List.flatMap_nil,
      List.append_nil]
    rcases Nat.lt_or_ge k m with hkm | hkm
    · rw [List.getD_append _ _ _ _ (by
        rw [flatMap_range_length f L m hf]
        calc k * L + i < k * L + L := by omega
        _ = (k + 1) * L := by ring
        _ ≤ m * L := Nat.mul_le_mul_right L hkm)]
      exact ih hkm
    · have hkm2 : k = m := by omega
      subst hkm2
      rw [List.getD_append_right _ _ _ _ (by
        rw [flatMap_range_length f L k hf]; omega)]
      rw [flatMap_range_length f L k hf]
      congr 1
      omega

theorem cdfs_getD (data : List ℕ) (width tilesX tilesY tileW tileH : ℕ) (cl : ℚ)
    (tx ty i : ℕ) (htx : tx < tilesX) (hty : ty < tilesY) (hi : i < NUM_BINS) :
    (cdfs data width tilesX tilesY tileW tileH cl).getD ((ty * tilesX + tx) * NUM_BINS + i) 0 =
      (tileCdf data width tileW tileH cl tx ty).getD i 0 := by
  unfold cdfs
  have hk : ty * tilesX + tx < tilesY * tilesX := by
    calc ty * tilesX + tx < ty * tilesX + tilesX := by omega
    _ = (ty + 1) * tilesX := by ring
    _ ≤ tilesY * tilesX := Nat.mul_le_mul_right tilesX hty
  rw [flatMap_range_getD _ 0 NUM_BINS _ _ _ (fun t => tileCdf_length ..) hk hi]
  have hmod : (ty * tilesX + tx) % tilesX = tx := by
    rw [Nat.mul_comm ty tilesX, Nat.mul_add_mod, Nat.mod_eq_of_lt htx]
  have hdiv : (ty * tilesX + tx) / tilesX = ty := by
    rw [Nat.mul_comm ty tilesX, Nat.mul_add_div (by omega), Nat.div_eq_of_lt htx]
    omega
  rw [hmod, hdiv]

/-! ### Partial sums through List.scanl -/

theorem scanl_add_getD (l : List ℤ) (a : ℤ) (i : ℕ) :
    (List.scanl (· + ·) a l).getD i 0 =
      if i ≤ l.length then a + (l.take i).sum else 0 := by
  induction l generalizing a i with
  | nil =>
    rcases i with _ | j
    · simp [List.scanl]
    · simp [List.scanl]
  | cons x t ih =>
    rcases i with _ | j
    · simp [List.scanl]
    · rw [List.scanl]
      have hcons : (a :: List.scanl (· + ·) (a + x) t).getD (j + 1) 0 =
          (List.scanl (· + ·) (a + x) t).getD j 0 := rfl
      rw [hcons, ih]
      by_cases hj : j ≤ t.length
      · rw [if_pos hj, if_pos (by simpa using hj), List.take_succ_cons, List.sum_cons]
        ring
      · rw [if_neg hj, if_neg (by simpa using hj)]

theorem getD_map_of_lt {α β : Type} (f : α → β) (l : List α) (i : ℕ)
    (hi : i < l.length) (d : β) (e : α) : (l.map f).getD i d = f (l.getD i e) := by
  rw [List.getD_eq_getElem _ _ (by simpa using hi), List.getElem_map,
    List.getD_eq_getElem _ _ hi]

theorem getD_tail {α : Type} (l : List α) (i : ℕ) (d : α) :
    l.tail.getD i d = l.getD (i + 1) d := by
  rw [List.getD_eq_getElem?_getD, List.getElem?_tail, List.getD_eq_getElem?_getD]

theorem cdfList_getD (h : List ℤ) (numPixels : ℤ) (i : ℕ) (hi : i < h.length) :
    (cdfList h numPixels).getD i 0 =
      toUInt8 (min 255 (Int.tdiv ((h.take (i + 1)).sum * 255) numPixels)) := by
  unfold cdfList
  have hlen : i < (List.scanl (· + ·) (0 : ℤ) h).tail.length := by
    rw [List.length_tail, List.length_scanl]
    omega
  rw [getD_map_of_lt _ _ _ hlen _ 0, getD_tail, scanl_add_getD, if_pos (by omega),
    zero_add]

/-! ### The remainder-distribution positions -/

theorem remainderPos_lt {r i : ℕ} (hi : i < r) : i * NUM_BINS / r < NUM_BINS := by
  have hr : 0 < r := by omega
  rw [Nat.div_lt_iff_lt_mul hr]
  calc i * NUM_BINS < r * NUM_BINS :=
        (Nat.mul_lt_mul_right (by norm_num [NUM_BINS])).2 hi
  _ = NUM_BINS * r := Nat.mul_comm r NUM_BINS

theorem remainderPos_strictMono {r i j : ℕ} (hij : i < j) (hj : j < r)
    (hr : r ≤ NUM_BINS) : i * NUM_BINS / r < j * NUM_BINS / r := by
  have hr0 : 0 < r := by omega
  have hN : NUM_BINS = 256 := rfl
  have h1 : i * NUM_BINS + r ≤ j * NUM_BINS := by
    rw [hN] at hr ⊢
    omega
  calc i * NUM_BINS / r < i * NUM_BINS / r + 1 := Nat.lt_succ_self _
  _ = (i * NUM_BINS + r) / r := (Nat.add_div_right _ hr0).symm
  _ ≤ j * NUM_BINS / r := Nat.div_le_div_right h1

theorem remainderPos_inj {r i j : ℕ} (hi : i < r) (hj : j < r) (hr : r ≤ NUM_BINS)
    (hne : i ≠ j) : i * NUM_BINS / r ≠ j * NUM_BINS / r := by
  rcases Nat.lt_or_ge i j with hij | hij
  · exact Nat.ne_of_lt (remainderPos_strictMono hij hj hr)
  · have hji : j < i := by omega
    exact (Nat.ne_of_lt (remainderPos_strictMono hji hi hr)).symm

theorem length_filter_eq_one {α : Type} {l : List α} {p : α → Bool} {a : α}
    (hnd : l.Nodup) (ha : a ∈ l) (hpa : p a = true)
    (huniq : ∀ x ∈ l, p x = true → x = a) :
    (l.filter p).length = 1 := by
  induction l with
  | nil => cases ha
  | cons x t ih =>
    rw [List.filter_cons]
    rcases List.mem_cons.1 ha with hax | hat
    · rw [if_pos (hax ▸ hpa)]
      have ht : t.filter p = [] := List.filter_eq_nil_iff.2 (fun y hy hpy => by
        have hyx : y = a := huniq y (List.mem_cons_of_mem _ hy) hpy
        rw [hyx, hax] at hy
        exact (List.nodup_cons.1 hnd).1 hy)
      simp [ht]
    · have hx2 : ¬p x = true := by
        intro hpx
        have hxa : x = a := huniq x (List.mem_cons_self _ _) hpx
        rw [hxa] at hnd
        exact (List.nodup_cons.1 hnd).1 hat
      rw [if_neg hx2]
      exact ih (List.nodup_cons.1 hnd).2 hat
        (fun y hy hpy => huniq y (List.mem_cons_of_mem _ hy) hpy)

theorem countP_remainderPos (r b : ℕ) (hr : r ≤ NUM_BINS) :
    ((List.range r).countP fun i => i * NUM_BINS / r == b) =
      if ∃ i ∈ Finset.range r, i * NUM_BINS / r = b then 1 else 0 := by
  by_cases hex : ∃ i ∈ Finset.range r, i * NUM_BINS / r = b
  · obtain ⟨i0, hi0mem, hb⟩ := hex
    have hi0 : i0 < r := Finset.mem_range.1 hi0mem
    rw [if_pos ⟨i0, hi0mem, hb⟩, List.countP_eq_length_filter]
    refine length_filter_eq_one (List.nodup_range r) (List.mem_range.2 hi0)
      (by simp [hb]) (fun x hx hpx => ?_)
    have hxr := List.mem_range.1 hx
    by_contra hne
    refine remainderPos_inj hxr hi0 hr hne ?_
    have hpx2 : x * NUM_BINS / r = b := by simpa using hpx
    rw [hpx2, hb]
  · rw [if_neg hex, List.countP_eq_length_filter]
    have hnil : (List.range r).filter (fun i => i * NUM_BINS / r == b) = [] :=
      List.filter_eq_nil_iff.2 (fun i hi hpi =>
        hex ⟨i, Finset.mem_range.2 (List.mem_range.1 hi), by simpa using hpi⟩)
    rw [hnil]
    rfl

theorem sum_countP {l : List ℕ} {posf : ℕ → ℕ} {n : ℕ} (hpos : ∀ i ∈ l, posf i < n) :
    ∑ b ∈ Finset.range n, (l.countP fun i => posf i == b) = l.length := by
  induction l with
  | nil => simp
  | cons a t ih =>
    simp only [List.countP_cons]
    rw [Finset.sum_add_distrib, ih (fun i hi => hpos i (List.mem_cons_of_mem a hi))]
    have hone : ∑ b ∈ Finset.range n, (if (posf a == b) = true then 1 else 0) = 1 := by
      have hsw : ∀ b, (if (posf a == b) = true then (1 : ℕ) else 0) =
          if b = posf a then 1 else 0 := fun b => by
        by_cases hb : b = posf a
        all_goals simp [hb]
        omega
      rw [Finset.sum_congr rfl (fun b _ => hsw b),
        Finset.sum_ite_eq' (Finset.range n) (posf a) (fun _ => 1),
        if_pos (Finset.mem_range.2 (hpos a (List.mem_cons_self a t)))]
    rw [hone]
    simp

/-! ### The clip-and-redistribute stage, bin by bin -/

theorem modify_getD_general (h : List ℤ) (n b : ℕ) :
    (h.modify (· + 1) n).getD b 0 =
      h.getD b 0 + if n = b ∧ b < h.length then 1 else 0 := by
  rw [List.getD_eq_getElem?_getD, List.getD_eq_getElem?_getD, List.getElem?_modify]
  rcases Nat.lt_or_ge b h.length with hb | hb
  · rw [List.getElem?_eq_getElem hb]
    by_cases hnb : n = b
    all_goals simp [hnb, hb]
  · rw [List.getElem?_eq_none hb]
    have hcond : ¬(n = b ∧ b < h.length) := by omega
    simp [hcond]

theorem foldl_modify_getD_nonneg {α : Type} (posf : α → ℕ) (l : List α) (h : List ℤ)
    (hnn : ∀ b, 0 ≤ h.getD b 0) (b : ℕ) :
    0 ≤ (l.foldl (fun acc i => acc.modify (· + 1) (posf i)) h).getD b 0 := by
  induction l generalizing h with
  | nil => exact hnn b
  | cons a t ih =>
    rw [List.foldl_cons]
    refine ih _ (fun c => ?_)
    rw [modify_getD_general]
    have hc0 := hnn c
    by_cases hc : posf a = c ∧ c < h.length
    · rw [if_pos hc]
      omega
    · rw [if_neg hc]
      omega

theorem excessOf_nonneg (h : List ℤ) (c : ℤ) : 0 ≤ excessOf h c :=
  List.sum_nonneg fun x hx => by
    obtain ⟨v, _, rfl⟩ := List.mem_map.1 hx
    exact le_max_right _ _

theorem clippedList_sum (h : List ℤ) (c : ℤ) :
    (clippedList h c).sum + excessOf h c = h.sum := by
  unfold clippedList excessOf
  induction h with
  | nil => simp
  | cons v t ih =>
    simp only [List.map_cons, List.sum_cons]
    omega

theorem map_add_const_sum (l : List ℤ) (k : ℤ) :
    (l.map (· + k)).sum = l.sum + l.length * k := by
  induction l with
  | nil => simp
  | cons v t ih =>
    simp only [List.map_cons, List.sum_cons, List.length_cons, ih]
    push_cast
    ring

theorem redistributedList_getD (h : List ℤ) (c : ℤ) (hlen : h.length = NUM_BINS)
    (b : ℕ) (hb : b < NUM_BINS) :
    (redistributedList h c).getD b 0 =
      min (h.getD b 0) c + Int.tdiv (excessOf h c) (NUM_BINS : ℤ) +
        ((List.range (Int.tmod (excessOf h c) (NUM_BINS : ℤ)).toNat).countP
          fun i => i * NUM_BINS / (Int.tmod (excessOf h c) (NUM_BINS : ℤ)).toNat == b) := by
  unfold redistributedList distributeRemainder
  rw [foldl_modify_getD _ _ _ _ (fun i hi => by
    rw [List.length_map]
    unfold clippedList
    rw [List.length_map, hlen]
    exact remainderPos_lt (List.mem_range.1 hi))]
  congr 1
  unfold clippedList
  rw [getD_map_of_lt _ _ _ (by rw [List.length_map, hlen]; exact hb) _ 0,
    getD_map_of_lt _ _ _ (by rw [hlen]; exact hb) _ 0]

theorem redistributedList_sum (h : List ℤ) (c : ℤ) (hlen : h.length = NUM_BINS) :
    (redistributedList h c).sum = h.sum := by
  unfold redistributedList distributeRemainder
  rw [foldl_modify_sum _ _ _ (fun i hi => by
      rw [List.length_map]
      unfold clippedList
      rw [List.length_map, hlen]
      exact remainderPos_lt (List.mem_range.1 hi)),
    List.length_range, map_add_const_sum]
  have h1 := clippedList_sum h c
  have hnn := excessOf_nonneg h c
  have hlen2 : (clippedList h c).length = NUM_BINS := by
    unfold clippedList
    rw [List.length_map, hlen]
  rw [hlen2]
  have hNB : ((NUM_BINS : ℕ) : ℤ) = 256 := rfl
  have ht1 : Int.tdiv (excessOf h c) (NUM_BINS : ℤ) = excessOf h c / 256 := by
    rw [hNB] at *
    exact Int.tdiv_eq_ediv hnn (by norm_num)
  have ht3 : ((Int.tmod (excessOf h c) (NUM_BINS : ℤ)).toNat : ℤ) = excessOf h c % 256 := by
    rw [hNB] at *
    rw [Int.tmod_eq_emod hnn (by norm_num)]
    exact Int.toNat_of_nonneg (Int.emod_nonneg _ (by norm_num))
  have ht4 := Int.ediv_add_emod (excessOf h c) 256
  rw [ht1, ht3, hNB]
  omega

theorem redistributedList_getD_nonneg (h : List ℤ) (c : ℤ)
    (hc : 1 ≤ c) (hnn : ∀ v ∈ h, 0 ≤ v) (b : ℕ) :
    0 ≤ (redistributedList h c).getD b 0 := by
  unfold redistributedList distributeRemainder
  refine foldl_modify_getD_nonneg _ _ _ (fun d => ?_) b
  rcases Nat.lt_or_ge d ((clippedList h c).map (· + Int.tdiv (excessOf h c) (NUM_BINS : ℤ))).length
    with hd | hd
  · rw [List.length_map] at hd
    rw [getD_map_of_lt _ _ _ hd _ 0]
    have hd2 : d < h.length := by
      unfold clippedList at hd
      rw [List.length_map] at hd
      exact hd
    have hmem : h.getD d 0 ∈ h := by
      rw [List.getD_eq_getElem _ _ hd2]
      exact List.getElem_mem hd2
    have hv := hnn _ hmem
    have hinc : 0 ≤ Int.tdiv (excessOf h c) (NUM_BINS : ℤ) :=
      Int.tdiv_nonneg (excessOf_nonneg h c) (by norm_num [NUM_BINS])
    unfold clippedList
    rw [getD_map_of_lt _ _ _ hd2 _ 0]
    have hmin : 0 ≤ min (h.getD d 0) c := le_min hv (by omega)
    omega
  · rw [List.getD_eq_default _ _ hd]

/-! ### Partial sums of nonnegative histograms -/

theorem take_sum_nonneg (h : List ℤ) (hnn : ∀ v ∈ h, 0 ≤ v) (i : ℕ) :
    0 ≤ (h.take i).sum :=
  List.sum_nonneg fun v hv => hnn v (List.mem_of_mem_take hv)

theorem take_sum_mono (h : List ℤ) (hnn : ∀ v ∈ h, 0 ≤ v) {i j : ℕ} (hij : i ≤ j) :
    (h.take i).sum ≤ (h.take j).sum := by
  have hsplit := List.take_append_drop i (h.take j)
  rw [List.take_take, Nat.min_eq_left hij] at hsplit
  have hdrop : 0 ≤ ((h.take j).drop i).sum := List.sum_nonneg fun v hv =>
    hnn v (List.mem_of_mem_take (List.mem_of_mem_drop hv))
  calc (h.take i).sum ≤ (h.take i).sum + ((h.take j).drop i).sum := by omega
  _ = (h.take j).sum := by rw [← List.sum_append, hsplit]

theorem replicate_getD_zero (n c : ℕ) : (List.replicate n (0 : ℤ)).getD c 0 = 0 := by
  rw [List.getD_eq_getElem?_getD, List.getElem?_replicate]
  split
  · rfl
  · rfl

theorem histList_getD_nonneg (data : List ℕ) (width tileW tileH tx ty b : ℕ) :
    0 ≤ (histList data width tileW tileH tx ty).getD b 0 := by
  unfold histList
  exact foldl_modify_getD_nonneg (fun p => p) _ _
    (fun c => le_of_eq (replicate_getD_zero NUM_BINS c).symm) b

theorem histList_mem_nonneg (data : List ℕ) (width tileW tileH tx ty : ℕ) :
    ∀ v ∈ histList data width tileW tileH tx ty, 0 ≤ v := by
  intro v hv
  obtain ⟨n, hn, rfl⟩ := List.mem_iff_getElem.1 hv
  rw [← List.getD_eq_getElem _ 0 hn]
  exact histList_getD_nonneg data width tileW tileH tx ty n

theorem redistributedList_mem_nonneg (h : List ℤ) (c : ℤ) (hc : 1 ≤ c)
    (hnn : ∀ v ∈ h, 0 ≤ v) : ∀ v ∈ redistributedList h c, 0 ≤ v := by
  intro v hv
  obtain ⟨n, hn, rfl⟩ := List.mem_iff_getElem.1 hv
  rw [← List.getD_eq_getElem _ 0 hn]
  exact redistributedList_getD_nonneg h c hc hnn n

/-! ### Bounds and monotonicity of the per-tile CDF -/

theorem clipCountOf_ge_one (cl : ℚ) (numPixels : ℤ) : 1 ≤ clipCountOf cl numPixels :=
  le_max_left 1 _

theorem toUInt8_mono_of_range {z1 z2 : ℤ} (h0 : 0 ≤ z1) (hz : z1 ≤ z2) (h2 : z2 < 256) :
    toUInt8 z1 ≤ toUInt8 z2 := by
  unfold toUInt8
  rw [Int.emod_eq_of_lt h0 (by omega), Int.emod_eq_of_lt (by omega) h2]
  exact Int.toNat_le_toNat hz

theorem tileCdf_getD (data : List ℕ) (width tileW tileH : ℕ) (cl : ℚ) (tx ty i : ℕ)
    (hi : i < NUM_BINS) :
    (tileCdf data width tileW tileH cl tx ty).getD i 0 =
      toUInt8 (min 255 (Int.tdiv
        (((redistributedList (histList data width tileW tileH tx ty)
            (clipCountOf cl ((tileW : ℤ) * (tileH : ℤ)))).take (i + 1)).sum * 255)
        ((tileW : ℤ) * (tileH : ℤ)))) := by
  unfold tileCdf
  exact cdfList_getD _ _ i (by rw [redistributedList_length, histList_length]; exact hi)

theorem tileCdf_getD_le (data : List ℕ) (width tileW tileH : ℕ) (cl : ℚ) (tx ty i : ℕ) :
    (tileCdf data width tileW tileH cl tx ty).getD i 0 ≤ 255 := by
  rcases Nat.lt_or_ge i NUM_BINS with hi | hi
  · rw [tileCdf_getD data width tileW tileH cl tx ty i hi]
    exact toUInt8_le _
  · rw [List.getD_eq_default _ _ (by rw [tileCdf_length]; exact hi)]
    omega

theorem cdfs_mem_le (data : List ℕ) (width tilesX tilesY tileW tileH : ℕ) (cl : ℚ)
    (v : ℕ) (hv : v ∈ cdfs data width tilesX tilesY tileW tileH cl) : v ≤ 255 := by
  unfold cdfs at hv
  obtain ⟨t, _, hvt⟩ := List.mem_flatMap.1 hv
  unfold tileCdf cdfList at hvt
  obtain ⟨s, _, rfl⟩ := List.mem_map.1 hvt
  exact toUInt8_le _

theorem cdfs_getD_le (data : List ℕ) (width tilesX tilesY tileW tileH : ℕ) (cl : ℚ)
    (idx : ℕ) : (cdfs data width tilesX tilesY tileW tileH cl).getD idx 0 ≤ 255 := by
  rcases Nat.lt_or_ge idx (cdfs data width tilesX tilesY tileW tileH cl).length with h | h
  · rw [List.getD_eq_getElem _ _ h]
    exact cdfs_mem_le data width tilesX tilesY tileW tileH cl _ (List.getElem_mem h)
  · rw [List.getD_eq_default _ _ h]
    omega

/-! ### The per-pixel interpolation result is a byte -/

theorem truncQ_clamp_le (v : ℚ) : (truncQ (max 0 (min 255 v))).toNat ≤ 255 := by
  have h0 : (0 : ℚ) ≤ max 0 (min 255 v) := le_max_left 0 _
  have h1 : max (0 : ℚ) (min 255 v) ≤ ((255 : ℕ) : ℚ) := by
    push_cast
    exact max_le (by norm_num) (min_le_left _ _)
  have h2 := truncQ_le_of_le h0 h1
  omega

theorem interpAt_le (data : List ℕ) (width tilesX tilesY tileW tileH : ℕ) (cl : ℚ)
    (x y : ℕ) : interpAt data width tilesX tilesY tileW tileH cl x y ≤ 255 :=
  truncQ_clamp_le _

/-! ### The valid path of the entry point -/

theorem applyCLAHE_valid (d : List ℕ) (width height tilesX tilesY : ℤ) (cl : ℚ)
    (hW : 0 < width) (hH : 0 < height) (htX : 0 < tilesX) (htY : 0 < tilesY)
    (htW : 0 < Int.tdiv width tilesX) (htH : 0 < Int.tdiv height tilesY) :
    applyCLAHE (some d) width height tilesX tilesY cl =
      some (outputList d width.toNat height.toNat tilesX.toNat tilesY.toNat
        (Int.tdiv width tilesX).toNat (Int.tdiv height tilesY).toNat cl) := by
  show (if width ≤ 0 ∨ height ≤ 0 then some d
    else if tilesX ≤ 0 ∨ tilesY ≤ 0 then some d
    else if Int.tdiv width tilesX ≤ 0 ∨ Int.tdiv height tilesY ≤ 0 then some d
    else some (outputList d width.toNat height.toNat tilesX.toNat tilesY.toNat
      (Int.tdiv width tilesX).toNat (Int.tdiv height tilesY).toNat cl)) = _
  rw [if_neg (by omega), if_neg (by omega), if_neg (by omega)]

theorem outputList_getD (data : List ℕ) (width height tilesX tilesY tileW tileH : ℕ)
    (cl : ℚ) (x y : ℕ) (hx : x < width) (hy : y < height) :
    (outputList data width height tilesX tilesY tileW tileH cl).getD (y * width + x) 0 =
      interpAt data width tilesX tilesY tileW tileH cl x y := by
  unfold outputList
  have hidx : y * width + x < width * height := by
    calc y * width + x < y * width + width := by omega
    _ = (y + 1) * width := by ring
    _ ≤ height * width := Nat.mul_le_mul_right width (by omega)
    _ = width * height := Nat.mul_comm height width
  rw [getD_map_of_lt _ _ _ (by rw [List.length_range]; exact hidx) _ 0]
  have hrange : (List.range (width * height)).getD (y * width + x) 0 = y * width + x := by
    rw [List.getD_eq_getElem?_getD, List.getElem?_range hidx]
    rfl
  rw [hrange]
  have hmod : (y * width + x) % width = x := by
    rw [Nat.mul_comm y width, Nat.mul_add_mod, Nat.mod_eq_of_lt hx]
  have hdiv : (y * width + x) / width = y := by
    rw [Nat.mul_comm y width, Nat.mul_add_div (by omega), Nat.div_eq_of_lt hx]
    omega
  rw [hmod, hdiv]

/-! ### Uniform images: tile independence and interpolation collapse -/

theorem replicate_getD {n i v : ℕ} (hi : i < n) : (List.replicate n v).getD i 0 = v := by
  rw [List.getD_eq_getElem?_getD, List.getElem?_replicate, if_pos hi]
  rfl

theorem tileCoords_length (tileW tileH tx ty : ℕ) :
    (tileCoords tileW tileH tx ty).length = tileH * tileW := by
  unfold tileCoords
  exact flatMap_range_length _ tileW _ (fun t => by
    rw [List.length_map, List.length_range])

theorem tileCoords_mem {tileW tileH tx ty : ℕ} {c : ℕ × ℕ}
    (hc : c ∈ tileCoords tileW tileH tx ty) :
    tx * tileW ≤ c.1 ∧ c.1 < tx * tileW + tileW ∧
      ty * tileH ≤ c.2 ∧ c.2 < ty * tileH + tileH := by
  unfold tileCoords at hc
  obtain ⟨dy, hdy, hc2⟩ := List.mem_flatMap.1 hc
  obtain ⟨dx, hdx, rfl⟩ := List.mem_map.1 hc2
  rw [List.mem_range] at hdy hdx
  exact ⟨by omega, by omega, by omega, by omega⟩

theorem tilePixels_replicate (W H tileW tileH tX tY tx ty v : ℕ)
    (htx : tx < tX) (hty : ty < tY) (hWt : tX * tileW ≤ W) (hHt : tY * tileH ≤ H) :
    tilePixels (List.replicate (W * H) v) W tileW tileH tx ty =
      List.replicate (tileH * tileW) v := by
  apply List.eq_replicate_iff.2
  constructor
  · unfold tilePixels
    rw [List.length_map, tileCoords_length]
  intro b hb
  unfold tilePixels at hb
  obtain ⟨c, hc, rfl⟩ := List.mem_map.1 hb
  obtain ⟨h1, h2, h3, h4⟩ := tileCoords_mem hc
  have hcx : c.1 < W :=
    calc c.1 < tx * tileW + tileW := h2
    _ = (tx + 1) * tileW := by ring
    _ ≤ tX * tileW := Nat.mul_le_mul_right _ (by omega)
    _ ≤ W := hWt
  have hcy : c.2 < H :=
    calc c.2 < ty * tileH + tileH := h4
    _ = (ty + 1) * tileH := by ring
    _ ≤ tY * tileH := Nat.mul_le_mul_right _ (by omega)
    _ ≤ H := hHt
  have hidx : c.2 * W + c.1 < W * H :=
    calc c.2 * W + c.1 < c.2 * W + W := by omega
    _ = (c.2 + 1) * W := by ring
    _ ≤ H * W := Nat.mul_le_mul_right _ (by omega)
    _ = W * H := Nat.mul_comm H W
  exact replicate_getD hidx

theorem tileCdf_uniform (W H tileW tileH tX tY tx ty v : ℕ) (cl : ℚ)
    (htx : tx < tX) (hty : ty < tY) (hWt : tX * tileW ≤ W) (hHt : tY * tileH ≤ H) :
    tileCdf (List.replicate (W * H) v) W tileW tileH cl tx ty =
      tileCdf (List.replicate (W * H) v) W tileW tileH cl 0 0 := by
  unfold tileCdf
  have hh : histList (List.replicate (W * H) v) W tileW tileH tx ty =
      histList (List.replicate (W * H) v) W tileW tileH 0 0 := by
    unfold histList
    rw [tilePixels_replicate W H tileW tileH tX tY tx ty v htx hty hWt hHt,
      tilePixels_replicate W H tileW tileH tX tY 0 0 v (by omega) (by omega) hWt hHt]
  rw [hh]

theorem idx0At_nonneg (tiles tileLen u : ℕ) : 0 ≤ idx0At tiles tileLen u :=
  le_max_left 0 _

theorem idx0At_le (tiles tileLen u : ℕ) (ht : 2 ≤ tiles) :
    idx0At tiles tileLen u ≤ (tiles : ℤ) - 2 := by
  unfold idx0At
  apply max_le
  · omega
  · exact min_le_right _ _

theorem flatIdx_toNat (tX : ℕ) (ty tx : ℤ) (p : ℕ) (hty : 0 ≤ ty) (htx : 0 ≤ tx) :
    (flatIdx tX ty tx p).toNat = (ty.toNat * tX + tx.toNat) * NUM_BINS + p := by
  unfold flatIdx
  rw [show (ty * (tX : ℤ) + tx) * (NUM_BINS : ℤ) + (p : ℤ) =
      (((ty.toNat * tX + tx.toNat) * NUM_BINS + p : ℕ) : ℤ) by
    push_cast
    rw [Int.toNat_of_nonneg hty, Int.toNat_of_nonneg htx]]
  exact Int.toNat_natCast _

theorem cdfs_getD_fetch (d : List ℕ) (W tX tY tW tH : ℕ) (cl : ℚ) (ty tx : ℤ)
    (p : ℕ) (hty0 : 0 ≤ ty) (htx0 : 0 ≤ tx) (htyb : ty.toNat < tY)
    (htxb : tx.toNat < tX) (hp : p < NUM_BINS) :
    (cdfs d W tX tY tW tH cl).getD (flatIdx tX ty tx p).toNat 0 =
      (tileCdf d W tW tH cl tx.toNat ty.toNat).getD p 0 := by
  rw [flatIdx_toNat tX ty tx p hty0 htx0]
  exact cdfs_getD d W tX tY tW tH cl tx.toNat ty.toNat p htxb htyb hp

theorem interpAt_uniform (W H tX tY tileW tileH : ℕ) (cl : ℚ) (v x y : ℕ)
    (hv : v < NUM_BINS) (htX : 2 ≤ tX) (htY : 2 ≤ tY)
    (hWt : tX * tileW ≤ W) (hHt : tY * tileH ≤ H) (hx : x < W) (hy : y < H) :
    interpAt (List.replicate (W * H) v) W tX tY tileW tileH cl x y =
      (tileCdf (List.replicate (W * H) v) W tileW tileH cl 0 0).getD v 0 := by
  have hidx : y * W + x < W * H :=
    calc y * W + x < y * W + W := by omega
    _ = (y + 1) * W := by ring
    _ ≤ H * W := Nat.mul_le_mul_right _ (by omega)
    _ = W * H := Nat.mul_comm H W
  have hpix : (List.replicate (W * H) v).getD (y * W + x) 0 = v := replicate_getD hidx
  have htx0 : 0 ≤ idx0At tX tileW x := idx0At_nonneg tX tileW x
  have hty0 : 0 ≤ idx0At tY tileH y := idx0At_nonneg tY tileH y
  have htxle := idx0At_le tX tileW x htX
  have htyle := idx0At_le tY tileH y htY
  have htxb : (idx0At tX tileW x).toNat < tX := by omega
  have htyb : (idx0At tY tileH y).toNat < tY := by omega
  have htx1 : 0 ≤ idx0At tX tileW x + 1 := by omega
  have hty1 : 0 ≤ idx0At tY tileH y + 1 := by omega
  have htxb1 : (idx0At tX tileW x + 1).toNat < tX := by omega
  have htyb1 : (idx0At tY tileH y + 1).toNat < tY := by omega
  simp only [interpAt]
  rw [hpix]
  rw [cdfs_getD_fetch _ W tX tY tileW tileH cl _ _ v hty0 htx0 htyb htxb hv,
    cdfs_getD_fetch _ W tX tY tileW tileH cl _ _ v hty0 htx1 htyb htxb1 hv,
    cdfs_getD_fetch _ W tX tY tileW tileH cl _ _ v hty1 htx0 htyb1 htxb hv,
    cdfs_getD_fetch _ W tX tY tileW tileH cl _ _ v hty1 htx1 htyb1 htxb1 hv]
  rw [tileCdf_uniform W H tileW tileH tX tY _ _ v cl htxb htyb hWt hHt,
    tileCdf_uniform W H tileW tileH tX tY _ _ v cl htxb1 htyb hWt hHt,
    tileCdf_uniform W H tileW tileH tX tY _ _ v cl htxb htyb1 hWt hHt,
    tileCdf_uniform W H tileW tileH tX tY _ _ v cl htxb1 htyb1 hWt hHt]
  generalize (max (0 : ℚ) (min 1 (fxAt tileW x - (idx0At tX tileW x : ℚ)))) = cax
  generalize (max (0 : ℚ) (min 1 (fxAt tileH y - (idx0At tY tileH y : ℚ)))) = cay
  set c := (tileCdf (List.replicate (W * H) v) W tileW tileH cl 0 0).getD v 0 with hc
  have hcol : ((c : ℚ) * (1 - cax) + (c : ℚ) * cax) * (1 - cay) +
      ((c : ℚ) * (1 - cax) + (c : ℚ) * cax) * cay = (c : ℚ) := by ring
  rw [hcol]
  have hcle : c ≤ 255 := tileCdf_getD_le _ W tileW tileH cl 0 0 v
  have hminc : min (255 : ℚ) (c : ℚ) = (c : ℚ) := min_eq_right (by exact_mod_cast hcle)
  have hmaxc : max (0 : ℚ) (c : ℚ) = (c : ℚ) := max_eq_right (by positivity)
  rw [hminc, hmaxc, truncQ_natCast, Int.toNat_natCast]

theorem toNat_tdiv_mul_le (W tX : ℤ) (hW : 0 < W) (htX : 0 < tX) :
    tX.toNat * (Int.tdiv W tX).toNat ≤ W.toNat := by
  have h1 : Int.tdiv W tX = W / tX := Int.tdiv_eq_ediv (by omega) (by omega)
  have h2 : (0 : ℤ) ≤ W / tX := Int.ediv_nonneg (by omega) (by omega)
  have h3 : W / tX * tX ≤ W := Int.ediv_mul_le W (by omega)
  have hcast : ((tX.toNat * (Int.tdiv W tX).toNat : ℕ) : ℤ) = tX * (W / tX) := by
    push_cast
    rw [h1, Int.toNat_of_nonneg (by omega : (0 : ℤ) ≤ tX), Int.toNat_of_nonneg h2]
  have hle : ((tX.toNat * (Int.tdiv W tX).toNat : ℕ) : ℤ) ≤ ((W.toNat : ℕ) : ℤ) := by
    rw [hcast, Int.toNat_of_nonneg (by omega : (0 : ℤ) ≤ W)]
    calc tX * (W / tX) = W / tX * tX := mul_comm _ _
    _ ≤ W := h3
  exact_mod_cast hle

theorem getD_lt_256 (d : List ℕ) (hgray : ∀ p ∈ d, p < NUM_BINS) (i : ℕ) :
    d.getD i 0 < NUM_BINS := by
  rcases Nat.lt_or_ge i d.length with h | h
  · rw [List.getD_eq_getElem _ _ h]
    exact hgray _ (List.getElem_mem h)
  · rw [List.getD_eq_default _ _ h]
    norm_num [NUM_BINS]

theorem fetch_idx_lt (tX tY : ℕ) (ty tx : ℤ)
    (hty0 : 0 ≤ ty) (htx0 : 0 ≤ tx) (htyb : ty.toNat < tY) (htxb : tx.toNat < tX)
    (p : ℕ) (hp : p < NUM_BINS) :
    (flatIdx tX ty tx p).toNat < tY * tX * NUM_BINS := by
  rw [flatIdx_toNat tX ty tx p hty0 htx0]
  calc (ty.toNat * tX + tx.toNat) * NUM_BINS + p
      < (ty.toNat * tX + tx.toNat) * NUM_BINS + NUM_BINS := by omega
  _ = (ty.toNat * tX + tx.toNat + 1) * NUM_BINS := by ring
  _ ≤ (tY * tX) * NUM_BINS := Nat.mul_le_mul_right _ (by
      calc ty.toNat * tX + tx.toNat + 1 ≤ ty.toNat * tX + tX := by omega
      _ = (ty.toNat + 1) * tX := by ring
      _ ≤ tY * tX := Nat.mul_le_mul_right _ (by omega))

theorem fetches_in_bounds (d : List ℕ) (W tX tY tW tH : ℕ) (cl : ℚ) (x y : ℕ)
    (hp : d.getD (y * W + x) 0 < NUM_BINS) (htX : 2 ≤ tX) (htY : 2 ≤ tY) :
    ∀ ty ∈ ([idx0At tY tH y, idx0At tY tH y + 1] : List ℤ),
    ∀ tx ∈ ([idx0At tX tW x, idx0At tX tW x + 1] : List ℤ),
      (flatIdx tX ty tx (d.getD (y * W + x) 0)).toNat <
        (cdfs d W tX tY tW tH cl).length := by
  intro ty hty tx htx
  rw [cdfs_length]
  have hty0 : 0 ≤ ty := by
    rcases List.mem_pair.1 hty with rfl | rfl
    · exact idx0At_nonneg ..
    · have := idx0At_nonneg tY tH y
      omega
  have htyb : ty.toNat < tY := by
    have h2 := idx0At_le tY tH y htY
    rcases List.mem_pair.1 hty with rfl | rfl
    · omega
    · omega
  have htx0 : 0 ≤ tx := by
    rcases List.mem_pair.1 htx with rfl | rfl
    · exact idx0At_nonneg ..
    · have := idx0At_nonneg tX tW x
      omega
  have htxb : tx.toNat < tX := by
    have h2 := idx0At_le tX tW x htX
    rcases List.mem_pair.1 htx with rfl | rfl
    · omega
    · omega
  exact fetch_idx_lt tX tY ty tx hty0 htx0 htyb htxb _ hp

theorem histList_sum (data : List ℕ) (width tileW tileH tx ty : ℕ)
    (hgray : ∀ p ∈ data, p < NUM_BINS) :
    (histList data width tileW tileH tx ty).sum = ((tileH * tileW : ℕ) : ℤ) := by
  unfold histList
  rw [foldl_modify_sum (fun p => p) _ _ (fun p hp => by
    rw [List.length_replicate]
    obtain ⟨c, _, rfl⟩ := List.mem_map.1 hp
    exact getD_lt_256 data hgray _)]
  rw [List.sum_replicate, smul_zero, zero_add]
  unfold tilePixels
  rw [List.length_map, tileCoords_length]

theorem redistributed_take_sum_le (data : List ℕ) (width tileW tileH tx ty : ℕ)
    (cl : ℚ) (hgray : ∀ p ∈ data, p < NUM_BINS) (j : ℕ) (hj : j < NUM_BINS) :
    ((redistributedList (histList data width tileW tileH tx ty)
        (clipCountOf cl ((tileW : ℤ) * (tileH : ℤ)))).take (j + 1)).sum ≤
      (tileW : ℤ) * (tileH : ℤ) := by
  set rh := redistributedList (histList data width tileW tileH tx ty)
    (clipCountOf cl ((tileW : ℤ) * (tileH : ℤ))) with hrh
  have hnn : ∀ v ∈ rh, 0 ≤ v :=
    redistributedList_mem_nonneg _ _ (clipCountOf_ge_one cl _)
      (histList_mem_nonneg data width tileW tileH tx ty)
  have hlenrh : rh.length = NUM_BINS := by
    rw [hrh, redistributedList_length, histList_length]
  have h1 : (rh.take (j + 1)).sum ≤ (rh.take rh.length).sum :=
    take_sum_mono rh hnn (by omega)
  rw [List.take_length] at h1
  have h2 : rh.sum = ((tileH * tileW : ℕ) : ℤ) := by
    rw [hrh, redistributedList_sum _ _ (histList_length ..),
      histList_sum data width tileW tileH tx ty hgray]
  have h3 : ((tileH * tileW : ℕ) : ℤ) = (tileW : ℤ) * (tileH : ℤ) := by
    push_cast
    ring
  rw [h2, h3] at h1
  exact h1

/-! ### Claims -/

/-- C1: for every call to applyCLAHE with an invalid input — null buffer, W ≤ 0,
H ≤ 0, tilesX ≤ 0, tilesY ≤ 0, or a tile configuration where floor(W/tilesX) = 0 or
floor(H/tilesY) = 0 — the call returns without mutating anything: the caller's buffer
is byte-for-byte identical before and after the call (no partial writes). -/
theorem C1_invalid_is_noop (data : Option (List ℕ)) (width height tilesX tilesY : ℤ)
    (clipLimit : ℚ)
    (h : data = none ∨ width ≤ 0 ∨ height ≤ 0 ∨ tilesX ≤ 0 ∨ tilesY ≤ 0 ∨
      Int.tdiv width tilesX = 0 ∨ Int.tdiv height tilesY = 0) :
    applyCLAHE data width height tilesX tilesY clipLimit = data := by
  rcases data with _ | d
  · rfl
  · have h2 : width ≤ 0 ∨ height ≤ 0 ∨ tilesX ≤ 0 ∨ tilesY ≤ 0 ∨
        Int.tdiv width tilesX = 0 ∨ Int.tdiv height tilesY = 0 := by
      rcases h with h | h
      · exact absurd h (by simp)
      · exact h
    show (if width ≤ 0 ∨ height ≤ 0 then some d
      else if tilesX ≤ 0 ∨ tilesY ≤ 0 then some d
      else if Int.tdiv width tilesX ≤ 0 ∨ Int.tdiv height tilesY ≤ 0 then some d
      else some (outputList d width.toNat height.toNat tilesX.toNat tilesY.toNat
        (Int.tdiv width tilesX).toNat (Int.tdiv height tilesY).toNat clipLimit)) = some d
    by_cases h3 : width ≤ 0 ∨ height ≤ 0
    · rw [if_pos h3]
    · rw [if_neg h3]
      by_cases h4 : tilesX ≤ 0 ∨ tilesY ≤ 0
      · rw [if_pos h4]
      · rw [if_neg h4]
        rw [if_pos (by omega)]

/-- Witness for C1 at the concrete invalid input width = 0. -/
theorem C1_witness : applyCLAHE (some [7]) 0 5 8 8 2 = some [7] :=
  C1_invalid_is_noop (some [7]) 0 5 8 8 2 (Or.inr (Or.inl (by decide)))

/-- C2: refuted — code bug. At the valid input data = [0], W = H = 1,
tilesX = tilesY = 1 (a 1×1 tile grid, which the interface admits), the bilinear
reconstructor clamps tx0 to [0, tilesX − 2] = [0, −1], i.e. to 0, and then fetches
tile tx1 = tx0 + 1 = 1 = tilesX: the flat index of the v01 fetch at pixel (0,0) is
256, which is not < tilesX*tilesY*256 = 256, the size of the cdfs vector. The source
reads the vector out of bounds (undefined behavior) whenever tilesX = 1 or
tilesY = 1. -/
theorem C2_fetch_index_out_of_bounds :
    (0 : ℤ) < 1 ∧ 0 < Int.tdiv 1 1 ∧
    flatIdx 1 (idx0At 1 1 0) (idx0At 1 1 0 + 1) (([0] : List ℕ).getD (0 * 1 + 0) 0) = 256 ∧
    (cdfs [0] 1 1 1 1 1 2).length = 1 * 1 * NUM_BINS ∧
    ¬(flatIdx 1 (idx0At 1 1 0) (idx0At 1 1 0 + 1) (([0] : List ℕ).getD (0 * 1 + 0) 0) <
      ((1 * 1 * NUM_BINS : ℕ) : ℤ)) := by with_unfolding_all decide

/-- C3: refuted. The uniform 2×2 image of intensity 0 with tilesX = tilesY = 2
(1×1 tiles) and clipLimit 2.0 is not left unchanged: each tile's histogram is a
single count of 1 in bin 0, the CDF maps 0 to min(255, 1*255/1) = 255, and every
pixel becomes 255 ≠ 0. -/
theorem C3_cex_uniform_changed :
    applyCLAHE (some (List.replicate 4 0)) 2 2 2 2 2 = some (List.replicate 4 255) ∧
    applyCLAHE (some (List.replicate 4 0)) 2 2 2 2 2 ≠ some (List.replicate 4 0) := by
  with_unfolding_all decide

/-- C3 amended: for every valid input with tilesX ≥ 2 and tilesY ≥ 2 whose pixels
all carry the same intensity v, applyCLAHE produces a uniform output in which every
pixel equals the tiles' common CDF entry at v (all tiles have identical CDFs); that
common value is in general different from v, so the buffer is not byte-identical.
(tilesX ≥ 2, tilesY ≥ 2 keeps the four neighbor fetches inside the CDF table; for
tilesX = 1 or tilesY = 1 the source reads out of bounds — see C2.) -/
theorem C3_amended_uniform_output (width height tilesX tilesY : ℤ) (cl : ℚ) (v : ℕ)
    (hv : v < NUM_BINS) (hW : 0 < width) (hH : 0 < height)
    (htX : 2 ≤ tilesX) (htY : 2 ≤ tilesY)
    (htW : 0 < Int.tdiv width tilesX) (htH : 0 < Int.tdiv height tilesY) :
    ∃ out, applyCLAHE (some (List.replicate (width.toNat * height.toNat) v))
        width height tilesX tilesY cl = some out ∧
      out.length = width.toNat * height.toNat ∧
      ∀ k < width.toNat * height.toNat,
        out.getD k 0 = (tileCdf (List.replicate (width.toNat * height.toNat) v)
          width.toNat (Int.tdiv width tilesX).toNat (Int.tdiv height tilesY).toNat
          cl 0 0).getD v 0 := by
  refine ⟨_, applyCLAHE_valid _ width height tilesX tilesY cl hW hH (by omega) (by omega)
    htW htH, outputList_length .., ?_⟩
  intro k hk
  have hW0 : 0 < width.toNat := by omega
  have hx : k % width.toNat < width.toNat := Nat.mod_lt _ hW0
  have hy : k / width.toNat < height.toNat := by
    rw [Nat.div_lt_iff_lt_mul hW0]
    calc k < width.toNat * height.toNat := hk
    _ = height.toNat * width.toNat := Nat.mul_comm _ _
  have hk2 : (k / width.toNat) * width.toNat + k % width.toNat = k := by
    rw [Nat.mul_comm]
    exact Nat.div_add_mod k width.toNat
  conv_lhs => rw [← hk2]
  rw [outputList_getD _ width.toNat height.toNat tilesX.toNat tilesY.toNat
    (Int.tdiv width tilesX).toNat (Int.tdiv height tilesY).toNat cl _ _ hx hy]
  exact interpAt_uniform width.toNat height.toNat tilesX.toNat tilesY.toNat
    (Int.tdiv width tilesX).toNat (Int.tdiv height tilesY).toNat cl v _ _ hv
    (by omega) (by omega)
    (toNat_tdiv_mul_le width tilesX hW (by omega))
    (toNat_tdiv_mul_le height tilesY hH (by omega))
    hx hy

/-- Witness for C3 amended at the uniform 2×2 image of intensity 0. -/
theorem C3_witness :
    ∃ out, applyCLAHE (some (List.replicate 4 0)) 2 2 2 2 2 = some out ∧
      out.length = 4 ∧
      ∀ k < 4, out.getD k 0 =
        (tileCdf (List.replicate 4 0) 2 1 1 2 0 0).getD 0 0 := by
  exact C3_amended_uniform_output 2 2 2 2 2 0 (by decide) (by decide) (by decide)
    (by decide) (by decide) (by decide) (by decide)

/-- C5: for every 256-bin histogram with nonnegative bins summing to numPixels and
every clipCount ≥ 1, clip-and-redistribute yields a histogram whose bins are all
nonnegative and still sum to numPixels. -/
theorem C5_clip_redistribute_preserves_mass (h : List ℤ) (numPixels clipCount : ℤ)
    (hlen : h.length = NUM_BINS) (hnn : ∀ v ∈ h, 0 ≤ v)
    (hsum : h.sum = numPixels) (hclip : 1 ≤ clipCount) :
    (redistributedList h clipCount).sum = numPixels ∧
      ∀ v ∈ redistributedList h clipCount, 0 ≤ v :=
  ⟨by rw [redistributedList_sum h clipCount hlen, hsum],
   redistributedList_mem_nonneg h clipCount hclip hnn⟩

/-- Witness for C5 at the concrete histogram with 4 in bin 0, clipCount 1. -/
theorem C5_witness :
    (redistributedList (4 :: List.replicate 255 0) 1).sum = 4 ∧
      ∀ v ∈ redistributedList (4 :: List.replicate 255 0) 1, 0 ≤ v :=
  C5_clip_redistribute_preserves_mass (4 :: List.replicate 255 0) 4 1
    (by decide) (by decide) (by decide) (by decide)

/-- C4: refuted as stated. The claim covers every valid input, including
tilesX = tilesY = 1; but there the four "neighbor tiles" of the formula do not all
exist. At the valid input data = 9 zero pixels, W = H = 3, tilesX = tilesY = 1
(a single 3×3 tile), pixel (1,0): tx0 is clamped to max(0, min(0, −1)) = 0 and the
v01 fetch uses tile tx1 = 1 = tilesX, flat index 256, while the cdfs table holds
only tilesX*tilesY*256 = 256 entries — the source reads the vector out of bounds
(the C2 bug, undefined behavior), so the stored byte is not a blend of four existing
neighbor tiles' CDF entries. -/
theorem C4_cex_fetch_outside_table :
    (0 : ℤ) < 3 ∧ (0 : ℤ) < 1 ∧ 0 < Int.tdiv 3 1 ∧
    (cdfs (List.replicate 9 0) 3 1 1 3 3 2).length = 1 * 1 * NUM_BINS ∧
    (flatIdx 1 (idx0At 1 3 0) (idx0At 1 3 1 + 1)
      ((List.replicate 9 0).getD (0 * 3 + 1) 0)).toNat ≥
      (cdfs (List.replicate 9 0) 3 1 1 3 3 2).length := by
  with_unfolding_all decide

/-- C4 amended: for every valid input with tilesX ≥ 2 and tilesY ≥ 2 (so the four
neighbor tiles exist; for tilesX = 1 or tilesY = 1 the source reads the CDF table
out of bounds, see C2) and every pixel (x,y), the byte finally stored at (x,y)
equals clamp(truncate(top*(1-ay) + bottom*ay), 0, 255) with top = v00*(1-ax)+v01*ax,
bottom = v10*(1-ax)+v11*ax, where the four v values are the CDF-table fetches for
the four neighbor tiles — all four fetch indices in bounds — at the ORIGINAL input
intensity data[y*W+x], and ax, ay are the clamped fractional weights; the right side
reads only the original buffer d and the CDF table built from it — never a value
rewritten in the same call — because the source writes into a separate output buffer
copied back only after every pixel is processed. -/
theorem C4_output_formula (d : List ℕ) (width height tilesX tilesY : ℤ) (cl : ℚ)
    (x y : ℕ) (hgray : ∀ p ∈ d, p < NUM_BINS)
    (hW : 0 < width) (hH : 0 < height) (htX : 2 ≤ tilesX) (htY : 2 ≤ tilesY)
    (htW : 0 < Int.tdiv width tilesX) (htH : 0 < Int.tdiv height tilesY)
    (hx : x < width.toNat) (hy : y < height.toNat) :
    ∃ out, applyCLAHE (some d) width height tilesX tilesY cl = some out ∧
      out.length = width.toNat * height.toNat ∧
      (∀ ty ∈ ([idx0At tilesY.toNat (Int.tdiv height tilesY).toNat y,
                idx0At tilesY.toNat (Int.tdiv height tilesY).toNat y + 1] : List ℤ),
       ∀ tx ∈ ([idx0At tilesX.toNat (Int.tdiv width tilesX).toNat x,
                idx0At tilesX.toNat (Int.tdiv width tilesX).toNat x + 1] : List ℤ),
        (flatIdx tilesX.toNat ty tx (d.getD (y * width.toNat + x) 0)).toNat <
          (cdfs d width.toNat tilesX.toNat tilesY.toNat (Int.tdiv width tilesX).toNat
            (Int.tdiv height tilesY).toNat cl).length) ∧
      out.getD (y * width.toNat + x) 0 =
        (let W := width.toNat
         let tX := tilesX.toNat
         let tY := tilesY.toNat
         let tW := (Int.tdiv width tilesX).toNat
         let tH := (Int.tdiv height tilesY).toNat
         let pixel := d.getD (y * W + x) 0
         let tx0 := idx0At tX tW x
         let ty0 := idx0At tY tH y
         let cax : ℚ := max 0 (min 1 (fxAt tW x - (tx0 : ℚ)))
         let cay : ℚ := max 0 (min 1 (fxAt tH y - (ty0 : ℚ)))
         let C := cdfs d W tX tY tW tH cl
         let v00 := C.getD (flatIdx tX ty0 tx0 pixel).toNat 0
         let v01 := C.getD (flatIdx tX ty0 (tx0 + 1) pixel).toNat 0
         let v10 := C.getD (flatIdx tX (ty0 + 1) tx0 pixel).toNat 0
         let v11 := C.getD (flatIdx tX (ty0 + 1) (tx0 + 1) pixel).toNat 0
         let top : ℚ := (v00 : ℚ) * (1 - cax) + (v01 : ℚ) * cax
         let bottom : ℚ := (v10 : ℚ) * (1 - cax) + (v11 : ℚ) * cax
         (truncQ (max 0 (min 255 (top * (1 - cay) + bottom * cay)))).toNat) := by
  refine ⟨_, applyCLAHE_valid d width height tilesX tilesY cl hW hH (by omega) (by omega)
    htW htH,
    outputList_length ..,
    fetches_in_bounds d width.toNat tilesX.toNat tilesY.toNat
      (Int.tdiv width tilesX).toNat (Int.tdiv height tilesY).toNat cl x y
      (getD_lt_256 d hgray _) (by omega) (by omega), ?_⟩
  rw [outputList_getD d width.toNat height.toNat tilesX.toNat tilesY.toNat
    (Int.tdiv width tilesX).toNat (Int.tdiv height tilesY).toNat cl x y hx hy]
  rfl

/-- Witness for C4 amended at the 2×2 zero image with 2×2 tiles, pixel (1,0). -/
theorem C4_witness :
    ∃ out, applyCLAHE (some [0, 0, 0, 0]) 2 2 2 2 2 = some out ∧
      out.length = 4 ∧
      (∀ ty ∈ ([idx0At 2 1 0, idx0At 2 1 0 + 1] : List ℤ),
       ∀ tx ∈ ([idx0At 2 1 1, idx0At 2 1 1 + 1] : List ℤ),
        (flatIdx 2 ty tx (([0, 0, 0, 0] : List ℕ).getD (0 * 2 + 1) 0)).toNat <
          (cdfs [0, 0, 0, 0] 2 2 2 1 1 2).length) ∧
      out.getD (0 * 2 + 1) 0 =
        (let W := 2
         let tX := 2
         let tY := 2
         let tW := 1
         let tH := 1
         let pixel := ([0, 0, 0, 0] : List ℕ).getD (0 * W + 1) 0
         let tx0 := idx0At tX tW 1
         let ty0 := idx0At tY tH 0
         let cax : ℚ := max 0 (min 1 (fxAt tW 1 - (tx0 : ℚ)))
         let cay : ℚ := max 0 (min 1 (fxAt tH 0 - (ty0 : ℚ)))
         let C := cdfs [0, 0, 0, 0] W tX tY tW tH 2
         let v00 := C.getD (flatIdx tX ty0 tx0 pixel).toNat 0
         let v01 := C.getD (flatIdx tX ty0 (tx0 + 1) pixel).toNat 0
         let v10 := C.getD (flatIdx tX (ty0 + 1) tx0 pixel).toNat 0
         let v11 := C.getD (flatIdx tX (ty0 + 1) (tx0 + 1) pixel).toNat 0
         let top : ℚ := (v00 : ℚ) * (1 - cax) + (v01 : ℚ) * cax
         let bottom : ℚ := (v10 : ℚ) * (1 - cax) + (v11 : ℚ) * cax
         (truncQ (max 0 (min 255 (top * (1 - cay) + bottom * cay)))).toNat) :=
  C4_output_formula [0, 0, 0, 0] 2 2 2 2 2 1 0 (by decide) (by decide) (by decide)
    (by decide) (by decide) (by decide) (by decide) (by decide) (by decide)

/-- C7: refuted as stated. With numPixelsPerTile = 2^25 — realized, e.g., by the
valid input W = 16384, H = 8192, tilesX = tilesY = 2, whose tiles are 8192×4096 —
and the cumulative sum cumSum = 2^25 − 1 (reachable, e.g., when exactly one pixel of
the tile exceeds intensity 254 and the clip limit is large enough that nothing is
clipped), the product cumSum*255 overflows a 32-bit int: the wrapped computation
yields byte 255 while exact clamped arithmetic yields 254. -/
theorem C7_overflow_mismatch :
    Int.tdiv 16384 2 * Int.tdiv 8192 2 = 2 ^ 25 ∧
    (0 : ℤ) ≤ 2 ^ 25 - 1 ∧ (2 ^ 25 - 1 : ℤ) ≤ 2 ^ 25 ∧
    cdfEntry32 (2 ^ 25 - 1) (2 ^ 25) = 255 ∧
    cdfEntryExact (2 ^ 25 - 1) (2 ^ 25) = 254 ∧
    cdfEntry32 (2 ^ 25 - 1) (2 ^ 25) ≠ cdfEntryExact (2 ^ 25 - 1) (2 ^ 25) := by
  decide

/-- C7 amended: if additionally 255 * numPixelsPerTile < 2^31 (tiles of at most
8 421 504 pixels), then for every cumulative sum in [0, numPixelsPerTile] the CDF
entry computed in 32-bit arithmetic equals the exact value clamped to [0, 255]. -/
theorem C7_no_overflow_agrees (c N : ℤ) (hN : 0 < N) (hc0 : 0 ≤ c) (hcN : c ≤ N)
    (hsmall : 255 * N < 2 ^ 31) :
    cdfEntry32 c N = cdfEntryExact c N := by
  have h1 : 0 ≤ c * 255 := by positivity
  have h2 : c * 255 < 2 ^ 31 := by
    calc c * 255 ≤ N * 255 := mul_le_mul_of_nonneg_right hcN (by norm_num)
    _ = 255 * N := by ring
    _ < 2 ^ 31 := hsmall
  have e31 : (2 : ℤ) ^ 31 = 2147483648 := by norm_num
  have e32 : (2 : ℤ) ^ 32 = 4294967296 := by norm_num
  have hw : wrap32 (c * 255) = c * 255 := by
    unfold wrap32
    rw [Int.emod_eq_of_lt (by omega) (by rw [e32]; omega)]
    ring
  unfold cdfEntry32 cdfEntryExact toUInt8
  rw [hw]
  have hq : 0 ≤ Int.tdiv (c * 255) N := Int.tdiv_nonneg h1 (le_of_lt hN)
  rw [max_eq_right hq]
  have hmin0 : 0 ≤ min 255 (Int.tdiv (c * 255) N) := le_min (by norm_num) hq
  have hmin1 : min 255 (Int.tdiv (c * 255) N) < 256 := by
    have := min_le_left 255 (Int.tdiv (c * 255) N)
    omega
  rw [Int.emod_eq_of_lt hmin0 hmin1]

/-- Witness for C7 amended at cumSum = 3, numPixelsPerTile = 4. -/
theorem C7_witness : cdfEntry32 3 4 = cdfEntryExact 3 4 :=
  C7_no_overflow_agrees 3 4 (by decide) (by decide) (by decide) (by decide)

/-- C10: for every remainder r with 0 < r < 256, the r bin indices i*256/r for
i < r are pairwise distinct and lie in [0, 255]; consequently the remainder loop
adds exactly one unit to r distinct bins and never increments a bin twice. -/
theorem C10_remainder_positions_distinct (r : ℕ) (h0 : 0 < r) (h1 : r < 256) :
    (∀ i < r, i * NUM_BINS / r ≤ 255) ∧
    (∀ i < r, ∀ j < r, i ≠ j → i * NUM_BINS / r ≠ j * NUM_BINS / r) ∧
    ∀ (h : List ℤ), h.length = NUM_BINS → ∀ b < NUM_BINS,
      (distributeRemainder r h).getD b 0 =
        h.getD b 0 + (if ∃ i ∈ Finset.range r, i * NUM_BINS / r = b then 1 else 0) := by
  have hN : NUM_BINS = 256 := rfl
  have hrle : r ≤ NUM_BINS := by omega
  refine ⟨fun i hi => by have := remainderPos_lt hi; omega,
    fun i hi j hj hne => remainderPos_inj hi hj hrle hne, ?_⟩
  intro h hlen b _
  unfold distributeRemainder
  rw [foldl_modify_getD _ _ _ _ (fun i hi => by
    rw [hlen]; exact remainderPos_lt (List.mem_range.1 hi))]
  rw [countP_remainderPos r b hrle]
  push_cast
  rfl

/-- C8: refuted as stated. At the valid input W = 5, H = 4, tilesX = 2, tilesY = 1
(tileW = 2, tileH = 4), pixel (4,0) lies beyond tilesX*tileW = 4 columns, so the
claim applies to it; but the v10 fetch of the reconstructor uses tile row
ty1 = ty0 + 1 = 1 = tilesY, whose flat index 512 is not below the table size
tilesY*tilesX*256 = 512: the "clamped (nearest edge) tile pair" does not exist and
the source reads the CDF vector out of bounds, so the pixel's output is not a
defined interpolation over existing tiles. -/
theorem C8_cex_out_of_table :
    (4 : ℕ) < 5 ∧ 2 * (Int.tdiv 5 2).toNat ≤ 4 ∧
    (cdfs (List.replicate 20 0) 5 2 1 2 4 2).length = 1 * 2 * NUM_BINS ∧
    (flatIdx 2 (idx0At 1 4 0 + 1) (idx0At 2 2 4)
      ((List.replicate 20 0).getD (0 * 5 + 4) 0)).toNat ≥
      (cdfs (List.replicate 20 0) 5 2 1 2 4 2).length := by
  with_unfolding_all decide

/-- C8 amended: for every valid input with tilesX ≥ 2 and tilesY ≥ 2 (so that all
four neighbor fetches stay inside the CDF table; tilesY = 1 or tilesX = 1 reads out
of bounds, see C2), every pixel (x,y) at column x ≥ tilesX*tileW or row
y ≥ tilesY*tileH is counted into no tile's histogram — it lies in no tile's scanned
region — yet is still assigned a defined output value in [0, 255], computed by the
§4.4 interpolation whose four fetch indices (over the clamped nearest-edge tile
pair) are all within the table. -/
theorem C8_amended_boundary (d : List ℕ) (width height tilesX tilesY : ℤ) (cl : ℚ)
    (x y : ℕ) (hgray : ∀ p ∈ d, p < NUM_BINS)
    (hW : 0 < width) (hH : 0 < height) (htX : 2 ≤ tilesX) (htY : 2 ≤ tilesY)
    (htW : 0 < Int.tdiv width tilesX) (htH : 0 < Int.tdiv height tilesY)
    (hx : x < width.toNat) (hy : y < height.toNat)
    (hout : tilesX.toNat * (Int.tdiv width tilesX).toNat ≤ x ∨
      tilesY.toNat * (Int.tdiv height tilesY).toNat ≤ y) :
    (∀ tx < tilesX.toNat, ∀ ty < tilesY.toNat,
      (x, y) ∉ tileCoords (Int.tdiv width tilesX).toNat (Int.tdiv height tilesY).toNat tx ty) ∧
    (∀ ty ∈ ([idx0At tilesY.toNat (Int.tdiv height tilesY).toNat y,
              idx0At tilesY.toNat (Int.tdiv height tilesY).toNat y + 1] : List ℤ),
     ∀ tx ∈ ([idx0At tilesX.toNat (Int.tdiv width tilesX).toNat x,
              idx0At tilesX.toNat (Int.tdiv width tilesX).toNat x + 1] : List ℤ),
      (flatIdx tilesX.toNat ty tx (d.getD (y * width.toNat + x) 0)).toNat <
        (cdfs d width.toNat tilesX.toNat tilesY.toNat (Int.tdiv width tilesX).toNat
          (Int.tdiv height tilesY).toNat cl).length) ∧
    ∃ out, applyCLAHE (some d) width height tilesX tilesY cl = some out ∧
      out.getD (y * width.toNat + x) 0 =
        interpAt d width.toNat tilesX.toNat tilesY.toNat (Int.tdiv width tilesX).toNat
          (Int.tdiv height tilesY).toNat cl x y ∧
      out.getD (y * width.toNat + x) 0 ≤ 255 := by
  have hp : d.getD (y * width.toNat + x) 0 < NUM_BINS := getD_lt_256 d hgray _
  have htX0 : 2 ≤ tilesX.toNat := by omega
  have htY0 : 2 ≤ tilesY.toNat := by omega
  refine ⟨?_, ?_, ?_⟩
  · intro tx htx ty hty hmem
    obtain ⟨h1, h2, h3, h4⟩ := tileCoords_mem hmem
    simp only at h1 h2 h3 h4
    rcases hout with hox | hoy
    · have hchain : x < tilesX.toNat * (Int.tdiv width tilesX).toNat :=
        calc x < tx * (Int.tdiv width tilesX).toNat + (Int.tdiv width tilesX).toNat := h2
        _ = (tx + 1) * (Int.tdiv width tilesX).toNat := by ring
        _ ≤ tilesX.toNat * (Int.tdiv width tilesX).toNat := Nat.mul_le_mul_right _ (by omega)
      omega
    · have hchain : y < tilesY.toNat * (Int.tdiv height tilesY).toNat :=
        calc y < ty * (Int.tdiv height tilesY).toNat + (Int.tdiv height tilesY).toNat := h4
        _ = (ty + 1) * (Int.tdiv height tilesY).toNat := by ring
        _ ≤ tilesY.toNat * (Int.tdiv height tilesY).toNat := Nat.mul_le_mul_right _ (by omega)
      omega
  · exact fetches_in_bounds d width.toNat tilesX.toNat tilesY.toNat
      (Int.tdiv width tilesX).toNat (Int.tdiv height tilesY).toNat cl x y hp htX0 htY0
  · refine ⟨_, applyCLAHE_valid d width height tilesX tilesY cl hW hH (by omega) (by omega)
      htW htH, ?_, ?_⟩
    · exact outputList_getD d width.toNat height.toNat tilesX.toNat tilesY.toNat
        (Int.tdiv width tilesX).toNat (Int.tdiv height tilesY).toNat cl x y hx hy
    · rw [outputList_getD d width.toNat height.toNat tilesX.toNat tilesY.toNat
        (Int.tdiv width tilesX).toNat (Int.tdiv height tilesY).toNat cl x y hx hy]
      exact interpAt_le ..

/-- Witness for C8 amended at W = 5, H = 4, tilesX = tilesY = 2, pixel (4,0). -/
theorem C8_witness :
    (∀ tx < 2, ∀ ty < 2, ((4 : ℕ), (0 : ℕ)) ∉ tileCoords 2 2 tx ty) ∧
    (∀ ty ∈ ([idx0At 2 2 0, idx0At 2 2 0 + 1] : List ℤ),
     ∀ tx ∈ ([idx0At 2 2 4, idx0At 2 2 4 + 1] : List ℤ),
      (flatIdx 2 ty tx ((List.replicate 20 0).getD (0 * 5 + 4) 0)).toNat <
        (cdfs (List.replicate 20 0) 5 2 2 2 2 2).length) ∧
    ∃ out, applyCLAHE (some (List.replicate 20 0)) 5 4 2 2 2 = some out ∧
      out.getD (0 * 5 + 4) 0 = interpAt (List.replicate 20 0) 5 2 2 2 2 2 4 0 ∧
      out.getD (0 * 5 + 4) 0 ≤ 255 :=
  C8_amended_boundary (List.replicate 20 0) 5 4 2 2 2 4 0 (by decide) (by decide)
    (by decide) (by decide) (by decide) (by decide) (by decide) (by decide) (by decide)
    (Or.inl (by decide))

/-- C9: the spec's concrete scenario. For the 16×16 image dataC9 with
tilesX = tilesY = 2 (8×8 tiles) and clipLimit = 2.0: the clip count is
max(1, trunc(2.0*64/256)) = 1; tile (0,0)'s histogram has bin 0 = 32 and
bin 255 = 32; the accumulated excess is 31+31 = 62; the per-bin increment is
62/256 = 0 with remainder 62; and after redistribution every bin b holds its
clipped value min(hist[b], 1) plus one exactly when b is among the 62 positions
i*256/62 for i < 62. -/
theorem C9_concrete_scenario :
    clipCountOf 2 ((8 : ℤ) * 8) = 1 ∧
    (histList dataC9 16 8 8 0 0).getD 0 0 = 32 ∧
    (histList dataC9 16 8 8 0 0).getD 255 0 = 32 ∧
    excessOf (histList dataC9 16 8 8 0 0) (clipCountOf 2 ((8 : ℤ) * 8)) = 62 ∧
    Int.tdiv 62 (NUM_BINS : ℤ) = 0 ∧ Int.tmod 62 (NUM_BINS : ℤ) = 62 ∧
    ∀ b < NUM_BINS,
      (redistributedList (histList dataC9 16 8 8 0 0)
          (clipCountOf 2 ((8 : ℤ) * 8))).getD b 0 =
        min ((histList dataC9 16 8 8 0 0).getD b 0) 1 +
          (if b ∈ (List.range 62).map (fun i => i * NUM_BINS / 62) then 1 else 0) := by
  with_unfolding_all decide

/-- C6: refuted as stated. The source computes cumSum*255 in 32-bit int, which wraps
for tiles over 8 421 504 pixels — at the valid input W = 16384, H = 8192,
tilesX = tilesY = 2 (2^25-pixel tiles) the cumulative sums 16 600 000 and
16 800 000 (reachable when the clip limit is large enough that nothing is clipped)
produce table bytes 255 and then 0: a decreasing step, so the program's CDF is not
monotonically non-decreasing over the claim's full domain of valid inputs. -/
theorem C6_cex_wrap_nonmonotone :
    Int.tdiv 16384 2 * Int.tdiv 8192 2 = 2 ^ 25 ∧
    (0 : ℤ) ≤ 16600000 ∧ (16600000 : ℤ) ≤ 16800000 ∧ (16800000 : ℤ) ≤ 2 ^ 25 ∧
    cdfEntry32 16600000 (2 ^ 25) = 255 ∧
    cdfEntry32 16800000 (2 ^ 25) = 0 ∧
    ¬(cdfEntry32 16600000 (2 ^ 25) ≤ cdfEntry32 16800000 (2 ^ 25)) := by decide

/-- C6 amended: for every tile of every valid input whose tiles satisfy
255 * numPixelsPerTile < 2^31 (at most 8 421 504 pixels per tile, so that the 32-bit
product cumSum*255 cannot wrap), the 256-entry CDF table produced by the normalizer
(entry i = min(255, cumSum_i*255/numPixelsPerTile) over the running cumulative sum
of the clipped histogram, stored as a byte) is monotonically non-decreasing in i and
every entry — in particular the last entry CDF[255] — is at most 255; moreover, each
entry equals the same computation carried out in wrapping 32-bit arithmetic
(cdfEntry32), i.e., these facts hold of the program's 32-bit table, not only of the
exact-integer model. Without the tile-size bound the 32-bit table can decrease (see
the counterexample). -/
theorem C6_cdf_monotone_bounded (data : List ℕ) (width tileW tileH tx ty : ℕ)
    (cl : ℚ) (hgray : ∀ p ∈ data, p < NUM_BINS) (htW : 0 < tileW) (htH : 0 < tileH)
    (hsmall : 255 * ((tileW : ℤ) * (tileH : ℤ)) < 2 ^ 31)
    (i j : ℕ) (hij : i ≤ j) (hj : j < NUM_BINS) :
    (tileCdf data width tileW tileH cl tx ty).getD i 0 ≤
      (tileCdf data width tileW tileH cl tx ty).getD j 0 ∧
    (tileCdf data width tileW tileH cl tx ty).getD j 0 ≤ 255 ∧
    (tileCdf data width tileW tileH cl tx ty).getD j 0 =
      cdfEntry32 (((redistributedList (histList data width tileW tileH tx ty)
          (clipCountOf cl ((tileW : ℤ) * (tileH : ℤ)))).take (j + 1)).sum)
        ((tileW : ℤ) * (tileH : ℤ)) := by
  refine ⟨?_, tileCdf_getD_le .., ?_⟩
  · have hi : i < NUM_BINS := lt_of_le_of_lt hij hj
    rw [tileCdf_getD data width tileW tileH cl tx ty i hi,
      tileCdf_getD data width tileW tileH cl tx ty j hj]
    have hnn : ∀ v ∈ redistributedList (histList data width tileW tileH tx ty)
        (clipCountOf cl ((tileW : ℤ) * (tileH : ℤ))), 0 ≤ v :=
      redistributedList_mem_nonneg _ _ (clipCountOf_ge_one cl _)
        (histList_mem_nonneg data width tileW tileH tx ty)
    set rh := redistributedList (histList data width tileW tileH tx ty)
      (clipCountOf cl ((tileW : ℤ) * (tileH : ℤ))) with hrh
    have hSi : 0 ≤ (rh.take (i + 1)).sum := take_sum_nonneg rh hnn (i + 1)
    have hS : (rh.take (i + 1)).sum ≤ (rh.take (j + 1)).sum :=
      take_sum_mono rh hnn (by omega)
    have htWZ : (0 : ℤ) < (tileW : ℤ) := by exact_mod_cast htW
    have htHZ : (0 : ℤ) < (tileH : ℤ) := by exact_mod_cast htH
    have hN : (0 : ℤ) < (tileW : ℤ) * (tileH : ℤ) := mul_pos htWZ htHZ
    have hd1 : Int.tdiv ((rh.take (i + 1)).sum * 255) ((tileW : ℤ) * (tileH : ℤ)) ≤
        Int.tdiv ((rh.take (j + 1)).sum * 255) ((tileW : ℤ) * (tileH : ℤ)) := by
      rw [Int.tdiv_eq_ediv (mul_nonneg hSi (by norm_num)) (le_of_lt hN),
        Int.tdiv_eq_ediv (mul_nonneg (le_trans hSi hS) (by norm_num)) (le_of_lt hN)]
      exact Int.ediv_le_ediv hN (mul_le_mul_of_nonneg_right hS (by norm_num))
    have h0 : 0 ≤ min 255 (Int.tdiv ((rh.take (i + 1)).sum * 255) ((tileW : ℤ) * (tileH : ℤ))) :=
      le_min (by norm_num) (Int.tdiv_nonneg (mul_nonneg hSi (by norm_num)) (le_of_lt hN))
    refine toUInt8_mono_of_range h0 (min_le_min (le_refl 255) hd1) ?_
    have := min_le_left 255
      (Int.tdiv ((rh.take (j + 1)).sum * 255) ((tileW : ℤ) * (tileH : ℤ)))
    omega
  · rw [tileCdf_getD data width tileW tileH cl tx ty j hj]
    set S := ((redistributedList (histList data width tileW tileH tx ty)
      (clipCountOf cl ((tileW : ℤ) * (tileH : ℤ)))).take (j + 1)).sum with hSdef
    have hS0 : 0 ≤ S := take_sum_nonneg _
      (redistributedList_mem_nonneg _ _ (clipCountOf_ge_one cl _)
        (histList_mem_nonneg data width tileW tileH tx ty)) (j + 1)
    have hSN : S ≤ (tileW : ℤ) * (tileH : ℤ) :=
      redistributed_take_sum_le data width tileW tileH tx ty cl hgray j hj
    have hP0 : 0 ≤ S * 255 := mul_nonneg hS0 (by norm_num)
    have hP1 : S * 255 < 2 ^ 31 :=
      calc S * 255 ≤ (tileW : ℤ) * (tileH : ℤ) * 255 :=
            mul_le_mul_of_nonneg_right hSN (by norm_num)
      _ = 255 * ((tileW : ℤ) * (tileH : ℤ)) := by ring
      _ < 2 ^ 31 := hsmall
    have e32 : (2 : ℤ) ^ 32 = 4294967296 := by norm_num
    have e31 : (2 : ℤ) ^ 31 = 2147483648 := by norm_num
    have hw : wrap32 (S * 255) = S * 255 := by
      unfold wrap32
      rw [Int.emod_eq_of_lt (by omega) (by rw [e32]; omega)]
      ring
    unfold cdfEntry32
    rw [hw]

/-- Witness for C6 amended at the concrete uniform 2×2 image with 1×1 tiles,
entries 3 ≤ 7. -/
theorem C6_witness :
    (tileCdf [0, 0, 0, 0] 2 1 1 2 0 0).getD 3 0 ≤
      (tileCdf [0, 0, 0, 0] 2 1 1 2 0 0).getD 7 0 ∧
    (tileCdf [0, 0, 0, 0] 2 1 1 2 0 0).getD 7 0 ≤ 255 ∧
    (tileCdf [0, 0, 0, 0] 2 1 1 2 0 0).getD 7 0 =
      cdfEntry32 (((redistributedList (histList [0, 0, 0, 0] 2 1 1 0 0)
          (clipCountOf 2 ((1 : ℤ) * 1))).take 8).sum) ((1 : ℤ) * 1) :=
  C6_cdf_monotone_bounded [0, 0, 0, 0] 2 1 1 0 0 2 (by decide) (by decide) (by decide)
    (by decide) 3 7 (by decide) (by decide)

/-- Witness for C10 at the concrete remainder r = 62. -/
theorem C10_witness :
    (∀ i < 62, i * NUM_BINS / 62 ≤ 255) ∧
    (∀ i < 62, ∀ j < 62, i ≠ j → i * NUM_BINS / 62 ≠ j * NUM_BINS / 62) ∧
    ∀ (h : List ℤ), h.length = NUM_BINS → ∀ b < NUM_BINS,
      (distributeRemainder 62 h).getD b 0 =
        h.getD b 0 + (if ∃ i ∈ Finset.range 62, i * NUM_BINS / 62 = b then 1 else 0) :=
  C10_remainder_positions_distinct 62 (by decide) (by decide)

end CLAHE
